import Mathlib

/-
Verification of the maximum-clique finder (HW7): the Bron-Kerbosch search
engine BK, the clique validator is_clique, the cross-validation orchestrator
validate_maximum_cliques, and the graph construction used by
parse_graph_file.  The graph model follows networkx semantics: a set of
nodes plus a symmetric set of adjacency pairs, where add_edge (u, v)
inserts both endpoints as nodes and records both (u, v) and (v, u);
note that add_edge (u, u) records the self-loop pair (u, u).
-/

set_option maxHeartbeats 1000000

/-- Graph in the style of an nx.Graph: a finite set of nodes and a finite
set of directed adjacency pairs, kept symmetric by the edge-insertion
operation.  A pair (u, v) being present means v is listed among the
neighbors of u. -/
structure NXGraph where
  nodes : Finset Nat
  adjPairs : Finset (Nat × Nat)
deriving DecidableEq

/-- Neighbor set of v, as in set(G.neighbors(v)): all second components of
adjacency pairs whose first component is v. -/
def NXGraph.neighbors (G : NXGraph) (v : Nat) : Finset Nat :=
  (G.adjPairs.filter (fun p => p.1 = v)).image Prod.snd

/-- G.has_edge(u, v) membership test. -/
def NXGraph.has_edge (G : NXGraph) (u v : Nat) : Bool :=
  decide ((u, v) ∈ G.adjPairs)

/-- G.add_edge(u, v) of nx.Graph: both endpoints become nodes and the pair
is recorded in both directions.  For u = v this records the self-loop
(u, u), exactly as networkx does. -/
def NXGraph.add_edge (G : NXGraph) (u v : Nat) : NXGraph :=
  ⟨insert u (insert v G.nodes), insert (u, v) (insert (v, u) G.adjPairs)⟩

/-- The adjacency pair set is symmetric; true of every graph built by
add_edge alone. -/
def NXGraph.symmAdj (G : NXGraph) : Prop :=
  ∀ u v : Nat, (u, v) ∈ G.adjPairs → (v, u) ∈ G.adjPairs

/-- The adjacency pair set is irreflexive: no self-loops. -/
def NXGraph.irreflAdj (G : NXGraph) : Prop :=
  ∀ u : Nat, (u, u) ∉ G.adjPairs

/-- Edge-insertion loop of parse_graph_file, applied to the (u, v) integer
pairs read from the edge lines; the file handling itself is outside the
embedding.  Starts from an empty nx.Graph() and folds G.add_edge(u, v). -/
def parse_graph_edges (edges : List (Nat × Nat)) : NXGraph :=
  edges.foldl (fun G p => G.add_edge p.1 p.2) ⟨∅, ∅⟩

/-- is_clique(G, clique) from ILP.py: for i in range(len(clique)), for j in
range(i + 1, len(clique)), fail when clique[i] and clique[j] have no edge.
The nested index loops test each list element against all later elements,
which is exactly this structural recursion. -/
def is_clique (G : NXGraph) : List Nat → Bool
  | [] => true
  | v :: vs => (vs.all (fun u => G.has_edge v u)) && is_clique G vs

/-- Message printed by validate_maximum_cliques when the BK candidate fails
validation. -/
def msg_bk_invalid : String := "Bron-Kerbosch output is not a clique."

/-- Message printed by validate_maximum_cliques when the ILP candidate fails
validation. -/
def msg_ilp_invalid : String := "ILP output is not a clique."

/-- Agreement message of validate_maximum_cliques. -/
def msg_agree : String := "Both algorithms found valid maximum cliques of the same size."

/-- Mismatch message of validate_maximum_cliques. -/
def msg_mismatch : String := "The cliques differ in size or validity."

/-- validate_maximum_cliques(G, clique_bk, clique_ilp) from ILP.py, modelled
as the list of lines it prints: sizes and validities are computed, a warning
line is printed for each invalid candidate, and the final line reports
agreement exactly when the sizes are equal and both candidates validate. -/
def validate_maximum_cliques (G : NXGraph) (clique_bk clique_ilp : List Nat) :
    List String :=
  let size_bk := clique_bk.length
  let size_ilp := clique_ilp.length
  let valid_bk := is_clique G clique_bk
  let valid_ilp := is_clique G clique_ilp
  (if valid_bk = false then [msg_bk_invalid] else []) ++
    (if valid_ilp = false then [msg_ilp_invalid] else []) ++
      (if size_bk = size_ilp ∧ valid_bk = true ∧ valid_ilp = true then
        [msg_agree]
      else [msg_mismatch])

/-- Ascending enumeration of a finite set of naturals: the canonical sorted
duplicate-free list of its elements.  This models sorted() on a Python set
(and fixes the arbitrary iteration order of list(P) to be ascending). -/
def sortedList (s : Finset Nat) : List Nat :=
  (List.range (s.sup id + 1)).filter (fun a => decide (a ∈ s))

/-- The for v in list(P) loop of bron_kerbosch, with the recursive call
abstracted as recur: for each remaining snapshot element v, recurse on
(R ∪ {v}, P ∩ nbrs v, X ∩ nbrs v), then P.remove(v) and X.add(v).  vs is
the not-yet-visited part of the snapshot. -/
def bkLoop (nbrs : Nat → Finset Nat)
    (recur : Finset Nat → Finset Nat → Finset Nat → Finset Nat → Option (Finset Nat)) :
    List Nat → Finset Nat → Finset Nat → Finset Nat → Finset Nat → Option (Finset Nat)
  | [], _, _, _, best => some best
  | v :: vs, R, P, X, best =>
    match recur (insert v R) (P ∩ nbrs v) (X ∩ nbrs v) best with
    | none => none
    | some best1 => bkLoop nbrs recur vs R (P.erase v) (insert v X) best1

/-- Inner recursion bron_kerbosch(R, P, X) of BK, threading the nonlocal
best_clique explicitly.  If P and X are both empty the report updates best
exactly when len(R) > len(best); otherwise the for-loop runs over a
snapshot of P (list(P), modelled in ascending order).  Fuel makes the
recursion — which the Python code performs without any bound, and which
diverges on graphs with self-loops — total: none is fuel exhaustion, and
fuel |P| + 1 is proved sufficient whenever the neighbor map is
irreflexive. -/
def bron_kerbosch (nbrs : Nat → Finset Nat) :
    Nat → Finset Nat → Finset Nat → Finset Nat → Finset Nat → Option (Finset Nat)
  | 0, _, _, _, _ => none
  | fuel + 1, R, P, X, best =>
    if P = ∅ ∧ X = ∅ then
      some (if best.card < R.card then R else best)
    else
      bkLoop nbrs (fun R1 P1 X1 b1 => bron_kerbosch nbrs fuel R1 P1 X1 b1)
        (sortedList P) R P X best

/-- BK(G) from bron-kerbosch.py / ILP.py: precompute the neighbor sets, run
bron_kerbosch(set(), set(G.nodes()), set()) with best_clique = set(), and
return sorted(best_clique).  Fuel |nodes| + 1 is sufficient for every graph
without self-loops; none models the runs on which the Python function would
not terminate. -/
def BK (G : NXGraph) : Option (List Nat) :=
  (bron_kerbosch G.neighbors (G.nodes.card + 1) ∅ G.nodes ∅ ∅).map sortedList

/-- v is adjacent to every member of s (each pair (u, v) is recorded). -/
def allAdj (G : NXGraph) (v : Nat) (s : Finset Nat) : Prop :=
  ∀ u ∈ s, (u, v) ∈ G.adjPairs

/-- A set of vertices is a clique: every ordered pair of distinct members
is an adjacency pair. -/
def IsClique (G : NXGraph) (s : Finset Nat) : Prop :=
  ∀ a ∈ s, ∀ b ∈ s, a ≠ b → (a, b) ∈ G.adjPairs

/-- A maximal clique among the nodes of G: a clique, contained in the node
set, that no further node of G is adjacent to in full. -/
def MaximalClique (G : NXGraph) (s : Finset Nat) : Prop :=
  IsClique G s ∧ s ⊆ G.nodes ∧ ∀ v ∈ G.nodes, v ∉ s → ¬ allAdj G v s

instance (G : NXGraph) (v : Nat) (s : Finset Nat) : Decidable (allAdj G v s) :=
  inferInstanceAs (Decidable (∀ u ∈ s, (u, v) ∈ G.adjPairs))

instance (G : NXGraph) (s : Finset Nat) : Decidable (IsClique G s) :=
  inferInstanceAs (Decidable (∀ a ∈ s, ∀ b ∈ s, a ≠ b → (a, b) ∈ G.adjPairs))

instance (G : NXGraph) (s : Finset Nat) : Decidable (MaximalClique G s) :=
  inferInstanceAs (Decidable (_ ∧ _ ∧ ∀ v ∈ G.nodes, v ∉ s → ¬ allAdj G v s))

/-- Call tree of bron_kerbosch as run by BK: the top-level call is
(∅, nodes, ∅); from a call (R, P, X) whose report guard fails, the loop over
the snapshot of P performs, for the element v preceded by the prefix pre,
the child call (R ∪ {v}, P_cur ∩ nbrs v, X_cur ∩ nbrs v) where
P_cur = P \ pre and X_cur = X ∪ pre reflect the P.remove / X.add mutations
of the earlier iterations. -/
inductive ReachableCall (G : NXGraph) : Finset Nat → Finset Nat → Finset Nat → Prop where
  | init : ReachableCall G ∅ G.nodes ∅
  | step (R P X : Finset Nat) (pre : List Nat) (v : Nat) (suf : List Nat) :
      ReachableCall G R P X →
      ¬(P = ∅ ∧ X = ∅) →
      sortedList P = pre ++ v :: suf →
      ReachableCall G (insert v R) ((P \ pre.toFinset) ∩ G.neighbors v)
        ((X ∪ pre.toFinset) ∩ G.neighbors v)

lemma mem_neighbors (G : NXGraph) (v u : Nat) :
    u ∈ G.neighbors v ↔ (v, u) ∈ G.adjPairs := by
  unfold NXGraph.neighbors
  simp only [Finset.mem_image, Finset.mem_filter, Prod.exists]
  constructor
  · rintro ⟨a, b, ⟨hab, ha⟩, hb⟩
    subst ha; subst hb; exact hab
  · intro h
    exact ⟨v, u, ⟨h, rfl⟩, rfl⟩

lemma mem_sortedList (s : Finset Nat) (a : Nat) : a ∈ sortedList s ↔ a ∈ s := by
  unfold sortedList
  simp only [List.mem_filter, List.mem_range, decide_eq_true_eq]
  constructor
  · exact fun h => h.2
  · intro h
    exact ⟨Nat.lt_succ_of_le (@Finset.le_sup Nat Nat _ _ s id a h), h⟩

lemma sortedList_nodup (s : Finset Nat) : (sortedList s).Nodup :=
  (List.nodup_range _).filter _

lemma sortedList_sorted (s : Finset Nat) : (sortedList s).Sorted (· ≤ ·) := by
  unfold sortedList
  exact List.Pairwise.filter _ ((List.pairwise_lt_range _).imp le_of_lt)

lemma sortedList_toFinset (s : Finset Nat) : (sortedList s).toFinset = s := by
  ext a
  rw [List.mem_toFinset, mem_sortedList]

lemma sortedList_length (s : Finset Nat) : (sortedList s).length = s.card := by
  rw [← List.toFinset_card_of_nodup (sortedList_nodup s), sortedList_toFinset]

lemma sortedList_eq_of_sorted_nodup (l : List Nat) (hs : l.Sorted (· ≤ ·))
    (hn : l.Nodup) : sortedList l.toFinset = l := by
  refine List.eq_of_perm_of_sorted ?_ (sortedList_sorted _) hs
  exact List.perm_of_nodup_nodup_toFinset_eq (sortedList_nodup _) hn
    (sortedList_toFinset _)

lemma is_clique_iff_pairwise (G : NXGraph) (l : List Nat) :
    is_clique G l = true ↔ l.Pairwise (fun a b => (a, b) ∈ G.adjPairs) := by
  induction l with
  | nil => simp [is_clique]
  | cons v vs ih =>
    simp only [is_clique, Bool.and_eq_true, List.all_eq_true, NXGraph.has_edge,
      decide_eq_true_eq, List.pairwise_cons, ih]

lemma is_clique_sortedList (G : NXGraph) (s : Finset Nat) (h : IsClique G s) :
    is_clique G (sortedList s) = true := by
  rw [is_clique_iff_pairwise]
  refine List.Pairwise.imp_of_mem ?_ (sortedList_nodup s)
  intro a b ha hb hab
  exact h a ((mem_sortedList s a).mp ha) b ((mem_sortedList s b).mp hb) hab

lemma inter_nbrs_subset_erase (nbrs : Nat → Finset Nat) (hirr : ∀ w, w ∉ nbrs w)
    (P : Finset Nat) (v : Nat) : P ∩ nbrs v ⊆ P.erase v := by
  intro x hx
  rw [Finset.mem_inter] at hx
  rw [Finset.mem_erase]
  refine ⟨?_, hx.1⟩
  intro hxv
  exact hirr v (hxv ▸ hx.2)

lemma inter_nbrs_card_lt (nbrs : Nat → Finset Nat) (hirr : ∀ w, w ∉ nbrs w)
    (P : Finset Nat) (v : Nat) (hv : v ∈ P) : (P ∩ nbrs v).card < P.card := by
  have h1 : (P ∩ nbrs v).card ≤ (P.erase v).card :=
    Finset.card_le_card (inter_nbrs_subset_erase nbrs hirr P v)
  have h2 : (P.erase v).card < P.card := Finset.card_erase_lt_of_mem hv
  omega

lemma inter_nbrs_ssubset (nbrs : Nat → Finset Nat) (hirr : ∀ w, w ∉ nbrs w)
    (P : Finset Nat) (v : Nat) (hv : v ∈ P) : P ∩ nbrs v ⊂ P := by
  constructor
  · exact Finset.inter_subset_left
  · intro hsub
    have : v ∈ P ∩ nbrs v := hsub hv
    exact hirr v (Finset.mem_inter.mp this).2

/-- Contract for a recursive continuation of the loop: the returned best is
never smaller than the incoming one, and is either the incoming set itself
or strictly larger (best is replaced only on strictly greater size). -/
def RecMono (recur : Finset Nat → Finset Nat → Finset Nat → Finset Nat → Option (Finset Nat)) : Prop :=
  ∀ R P X b b1, recur R P X b = some b1 →
    b.card ≤ b1.card ∧ (b1 = b ∨ b.card < b1.card)

lemma bkLoop_mono (nbrs : Nat → Finset Nat)
    (recur : Finset Nat → Finset Nat → Finset Nat → Finset Nat → Option (Finset Nat))
    (hmono : RecMono recur) :
    ∀ vs R P X b b1, bkLoop nbrs recur vs R P X b = some b1 →
      b.card ≤ b1.card ∧ (b1 = b ∨ b.card < b1.card) := by
  intro vs
  induction vs with
  | nil =>
    intro R P X b b1 h
    simp only [bkLoop, Option.some.injEq] at h
    subst h
    exact ⟨le_refl _, Or.inl rfl⟩
  | cons v vs ih =>
    intro R P X b b1 h
    simp only [bkLoop] at h
    cases hrec : recur (insert v R) (P ∩ nbrs v) (X ∩ nbrs v) b with
    | none => rw [hrec] at h; exact absurd h (by simp)
    | some bmid =>
      rw [hrec] at h
      have h1 := hmono _ _ _ _ _ hrec
      have h2 := ih _ _ _ _ _ h
      refine ⟨le_trans h1.1 h2.1, ?_⟩
      rcases h1.2 with he1 | hl1
      · subst he1
        exact h2.2
      · right
        exact lt_of_lt_of_le hl1 h2.1

lemma bron_kerbosch_mono (nbrs : Nat → Finset Nat) :
    ∀ fuel, RecMono (fun R P X b => bron_kerbosch nbrs fuel R P X b) := by
  intro fuel
  induction fuel with
  | zero =>
    intro R P X b b1 h
    simp [bron_kerbosch] at h
  | succ fuel ih =>
    intro R P X b b1 h
    simp only [bron_kerbosch] at h
    by_cases hguard : P = ∅ ∧ X = ∅
    · rw [if_pos hguard] at h
      simp only [Option.some.injEq] at h
      by_cases hcard : b.card < R.card
      · rw [if_pos hcard] at h
        subst h
        exact ⟨le_of_lt hcard, Or.inr hcard⟩
      · rw [if_neg hcard] at h
        subst h
        exact ⟨le_refl _, Or.inl rfl⟩
    · rw [if_neg hguard] at h
      exact bkLoop_mono nbrs _ ih _ _ _ _ _ _ h

/-- Contract for a recursive continuation: it returns a result (no fuel
exhaustion) whenever the candidate set has fewer than N elements. -/
def RecTotal (N : Nat)
    (recur : Finset Nat → Finset Nat → Finset Nat → Finset Nat → Option (Finset Nat)) : Prop :=
  ∀ R P X b, P.card < N → (recur R P X b).isSome = true

lemma bkLoop_isSome (nbrs : Nat → Finset Nat) (hirr : ∀ w, w ∉ nbrs w) (N : Nat)
    (recur : Finset Nat → Finset Nat → Finset Nat → Finset Nat → Option (Finset Nat))
    (htot : RecTotal N recur) :
    ∀ vs R P X b, vs.Nodup → (∀ w ∈ vs, w ∈ P) → P.card ≤ N →
      (bkLoop nbrs recur vs R P X b).isSome = true := by
  intro vs
  induction vs with
  | nil =>
    intro R P X b _ _ _
    simp [bkLoop]
  | cons v vs ih =>
    intro R P X b hnd hmem hcard
    have hv : v ∈ P := hmem v (List.mem_cons_self v vs)
    have hltN : (P ∩ nbrs v).card < N :=
      lt_of_lt_of_le (inter_nbrs_card_lt nbrs hirr P v hv) hcard
    have hrec := htot (insert v R) (P ∩ nbrs v) (X ∩ nbrs v) b hltN
    simp only [bkLoop]
    cases hres : recur (insert v R) (P ∩ nbrs v) (X ∩ nbrs v) b with
    | none => rw [hres] at hrec; simp at hrec
    | some bmid =>
      have hnd1 := (List.nodup_cons.mp hnd)
      refine ih R (P.erase v) (insert v X) bmid hnd1.2 ?_ ?_
      · intro w hw
        rw [Finset.mem_erase]
        refine ⟨?_, hmem w (List.mem_cons_of_mem v hw)⟩
        intro hwv
        exact hnd1.1 (hwv ▸ hw)
      · exact le_trans (Finset.card_le_card (Finset.erase_subset v P)) hcard

lemma bron_kerbosch_isSome (nbrs : Nat → Finset Nat) (hirr : ∀ w, w ∉ nbrs w) :
    ∀ fuel, RecTotal fuel (fun R P X b => bron_kerbosch nbrs fuel R P X b) := by
  intro fuel
  induction fuel with
  | zero =>
    intro R P X b h
    exact absurd h (Nat.not_lt_zero _)
  | succ fuel ih =>
    intro R P X b h
    simp only [bron_kerbosch]
    by_cases hguard : P = ∅ ∧ X = ∅
    · rw [if_pos hguard]
      rfl
    · rw [if_neg hguard]
      refine bkLoop_isSome nbrs hirr fuel _ ih (sortedList P) R P X b
        (sortedList_nodup P) ?_ ?_
      · intro w hw
        exact (mem_sortedList P w).mp hw
      · omega

lemma IsClique_insert (G : NXGraph) (hs : G.symmAdj) (R : Finset Nat) (v : Nat)
    (hR : IsClique G R) (hv : allAdj G v R) : IsClique G (insert v R) := by
  intro a ha b hb hab
  rw [Finset.mem_insert] at ha hb
  rcases ha with rfl | ha
  · rcases hb with rfl | hb
    · exact absurd rfl hab
    · exact hs b a (hv b hb)
  · rcases hb with rfl | hb
    · exact hv a ha
    · exact hR a ha b hb hab

lemma allAdj_insert (G : NXGraph) (R : Finset Nat) (v w : Nat)
    (h : allAdj G w R) (hvw : (v, w) ∈ G.adjPairs) : allAdj G w (insert v R) := by
  intro u hu
  rw [Finset.mem_insert] at hu
  rcases hu with rfl | hu
  · exact hvw
  · exact h u hu

/-- Contract for a recursive continuation: starting from a clique R whose
candidates are all common neighbors of R and a clique best, the returned
best is again a clique. -/
def RecSound (G : NXGraph)
    (recur : Finset Nat → Finset Nat → Finset Nat → Finset Nat → Option (Finset Nat)) : Prop :=
  ∀ R P X b b1, IsClique G R → (∀ w ∈ P, allAdj G w R) → IsClique G b →
    recur R P X b = some b1 → IsClique G b1

lemma bkLoop_sound (G : NXGraph) (hs : G.symmAdj)
    (recur : Finset Nat → Finset Nat → Finset Nat → Finset Nat → Option (Finset Nat))
    (hsound : RecSound G recur) :
    ∀ vs R P X b b1, IsClique G R → (∀ w ∈ P, allAdj G w R) →
      (∀ w ∈ vs, allAdj G w R) → IsClique G b →
      bkLoop G.neighbors recur vs R P X b = some b1 → IsClique G b1 := by
  intro vs
  induction vs with
  | nil =>
    intro R P X b b1 _ _ _ hb h
    simp only [bkLoop, Option.some.injEq] at h
    exact h ▸ hb
  | cons v vs ih =>
    intro R P X b b1 hR hP hvs hb h
    have hvR : allAdj G v R := hvs v (List.mem_cons_self v vs)
    simp only [bkLoop] at h
    cases hrec : recur (insert v R) (P ∩ G.neighbors v) (X ∩ G.neighbors v) b with
    | none => rw [hrec] at h; exact absurd h (by simp)
    | some bmid =>
      rw [hrec] at h
      have hbmid : IsClique G bmid := by
        refine hsound (insert v R) (P ∩ G.neighbors v) (X ∩ G.neighbors v) b bmid
          (IsClique_insert G hs R v hR hvR) ?_ hb hrec
        intro w hw
        rw [Finset.mem_inter, mem_neighbors] at hw
        exact allAdj_insert G R v w (hP w hw.1) hw.2
      refine ih R (P.erase v) (insert v X) bmid b1 hR ?_ ?_ hbmid h
      · intro w hw
        exact hP w (Finset.mem_of_mem_erase hw)
      · intro w hw
        exact hvs w (List.mem_cons_of_mem v hw)

lemma bron_kerbosch_sound (G : NXGraph) (hs : G.symmAdj) :
    ∀ fuel, RecSound G (fun R P X b => bron_kerbosch G.neighbors fuel R P X b) := by
  intro fuel
  induction fuel with
  | zero =>
    intro R P X b b1 _ _ _ h
    simp [bron_kerbosch] at h
  | succ fuel ih =>
    intro R P X b b1 hR hP hb h
    simp only [bron_kerbosch] at h
    by_cases hguard : P = ∅ ∧ X = ∅
    · rw [if_pos hguard] at h
      simp only [Option.some.injEq] at h
      subst h
      by_cases hcard : b.card < R.card
      · rw [if_pos hcard]; exact hR
      · rw [if_neg hcard]; exact hb
    · rw [if_neg hguard] at h
      refine bkLoop_sound G hs _ ih (sortedList P) R P X b b1 hR hP ?_ hb h
      intro w hw
      exact hP w ((mem_sortedList P w).mp hw)

lemma neighbors_not_self (G : NXGraph) (hirr : G.irreflAdj) :
    ∀ w, w ∉ G.neighbors w :=
  fun w h => hirr w ((mem_neighbors G w w).mp h)

/-- Contract for a recursive continuation: whenever the call is consistent
with a clique M — R inside M, the rest of M among the candidates, all of
P ∪ X common neighbors of R, and no member of P ∪ X extending M — the
returned best has at least the size of M. -/
def RecComplete (G : NXGraph) (N : Nat) (M : Finset Nat)
    (recur : Finset Nat → Finset Nat → Finset Nat → Finset Nat → Option (Finset Nat)) : Prop :=
  ∀ R P X b, P.card < N → R ⊆ M → M \ R ⊆ P →
    (∀ w ∈ P ∪ X, allAdj G w R) →
    (∀ w ∈ P ∪ X, allAdj G w M → w ∈ M) →
    ∃ b1, recur R P X b = some b1 ∧ M.card ≤ b1.card

lemma bkLoop_complete (G : NXGraph) (hs : G.symmAdj) (hirr : G.irreflAdj)
    (M : Finset Nat) (hM : IsClique G M) (N : Nat)
    (recur : Finset Nat → Finset Nat → Finset Nat → Finset Nat → Option (Finset Nat))
    (hmono : RecMono recur) (htot : RecTotal N recur)
    (hcomp : RecComplete G N M recur) :
    ∀ vs R P X b, vs.Nodup → (∀ w, w ∈ vs ↔ w ∈ P) → P.card ≤ N →
      R ⊆ M → (M \ R).Nonempty → M \ R ⊆ P →
      (∀ w ∈ P ∪ X, allAdj G w R) →
      (∀ w ∈ P ∪ X, allAdj G w M → w ∈ M) →
      ∃ b1, bkLoop G.neighbors recur vs R P X b = some b1 ∧ M.card ≤ b1.card := by
  intro vs
  induction vs with
  | nil =>
    intro R P X b _ hiff _ _ hne hMR _ _
    exfalso
    obtain ⟨u, hu⟩ := hne
    exact (List.not_mem_nil u) ((hiff u).mpr (hMR hu))
  | cons v vs ih =>
    intro R P X b hnd hiff hcard hRM hne hMR hH3 hH4
    have hv : v ∈ P := (hiff v).mp (List.mem_cons_self v vs)
    have hnbrs := neighbors_not_self G hirr
    have hcard1 : (P ∩ G.neighbors v).card < N :=
      lt_of_lt_of_le (inter_nbrs_card_lt G.neighbors hnbrs P v hv) hcard
    have hnd1 := List.nodup_cons.mp hnd
    have htail_iff : ∀ w, w ∈ vs ↔ w ∈ P.erase v := by
      intro w
      constructor
      · intro hw
        rw [Finset.mem_erase]
        refine ⟨?_, (hiff w).mp (List.mem_cons_of_mem v hw)⟩
        intro hwv
        exact hnd1.1 (hwv ▸ hw)
      · intro hw
        rw [Finset.mem_erase] at hw
        rcases List.mem_cons.mp ((hiff w).mpr hw.2) with rfl | h
        · exact absurd rfl hw.1
        · exact h
    have htail_card : (P.erase v).card ≤ N :=
      le_trans (Finset.card_le_card (Finset.erase_subset v P)) hcard
    by_cases hvM : v ∈ M
    · -- v belongs to M: the child call reaches M and reports it
      have hchild := hcomp (insert v R) (P ∩ G.neighbors v) (X ∩ G.neighbors v) b
        hcard1 (Finset.insert_subset hvM hRM) ?_ ?_ ?_
      · obtain ⟨bmid, hbmid, hMbmid⟩ := hchild
        have htail : (bkLoop G.neighbors recur vs R (P.erase v) (insert v X) bmid).isSome = true := by
          refine bkLoop_isSome G.neighbors hnbrs N recur htot vs R (P.erase v)
            (insert v X) bmid hnd1.2 ?_ htail_card
          intro w hw
          exact (htail_iff w).mp hw
        obtain ⟨b1, hb1⟩ := Option.isSome_iff_exists.mp htail
        refine ⟨b1, ?_, ?_⟩
        · simp only [bkLoop]
          rw [hbmid]
          exact hb1
        · exact le_trans hMbmid (bkLoop_mono G.neighbors recur hmono vs R
            (P.erase v) (insert v X) bmid b1 hb1).1
      · -- M \ insert v R ⊆ P ∩ neighbors v
        intro u hu
        rw [Finset.mem_sdiff, Finset.mem_insert] at hu
        push_neg at hu
        obtain ⟨huM, huv, huR⟩ := hu
        rw [Finset.mem_inter, mem_neighbors]
        constructor
        · exact hMR (Finset.mem_sdiff.mpr ⟨huM, huR⟩)
        · exact hM v hvM u huM (fun h => huv h.symm)
      · -- all of child P ∪ X are common neighbors of insert v R
        intro w hw
        have hw1 : w ∈ (P ∪ X) ∧ w ∈ G.neighbors v := by
          rw [Finset.mem_union] at hw ⊢
          rcases hw with hw | hw
          · rw [Finset.mem_inter] at hw
            exact ⟨Or.inl hw.1, hw.2⟩
          · rw [Finset.mem_inter] at hw
            exact ⟨Or.inr hw.1, hw.2⟩
        exact allAdj_insert G R v w (hH3 w hw1.1) ((mem_neighbors G v w).mp hw1.2)
      · -- no member of child P ∪ X extends M
        intro w hw
        refine hH4 w ?_
        rw [Finset.mem_union] at hw
        rw [Finset.mem_union]
        rcases hw with hw | hw
        · exact Or.inl (Finset.mem_inter.mp hw).1
        · exact Or.inr (Finset.mem_inter.mp hw).1
    · -- v outside M: the child call is irrelevant; continue with the tail
      have hchild : (recur (insert v R) (P ∩ G.neighbors v) (X ∩ G.neighbors v) b).isSome = true :=
        htot (insert v R) (P ∩ G.neighbors v) (X ∩ G.neighbors v) b hcard1
      obtain ⟨bmid, hbmid⟩ := Option.isSome_iff_exists.mp hchild
      have htail := ih R (P.erase v) (insert v X) bmid hnd1.2 htail_iff htail_card
        hRM hne ?_ ?_ ?_
      · obtain ⟨b1, hb1, hMb1⟩ := htail
        refine ⟨b1, ?_, hMb1⟩
        simp only [bkLoop]
        rw [hbmid]
        exact hb1
      · -- M \ R avoids v, so it stays inside P.erase v
        intro u hu
        rw [Finset.mem_erase]
        refine ⟨?_, hMR hu⟩
        intro huv
        exact hvM (huv ▸ (Finset.mem_sdiff.mp hu).1)
      · -- common-neighbor invariant for the mutated P, X
        intro w hw
        rw [Finset.mem_union, Finset.mem_erase, Finset.mem_insert] at hw
        rcases hw with hw | hw | hw
        · exact hH3 w (Finset.mem_union.mpr (Or.inl hw.2))
        · exact hH3 w (Finset.mem_union.mpr (Or.inl (hw ▸ hv)))
        · exact hH3 w (Finset.mem_union.mpr (Or.inr hw))
      · -- no-extension invariant for the mutated P, X
        intro w hw
        rw [Finset.mem_union, Finset.mem_erase, Finset.mem_insert] at hw
        rcases hw with hw | hw | hw
        · exact hH4 w (Finset.mem_union.mpr (Or.inl hw.2))
        · exact hH4 w (Finset.mem_union.mpr (Or.inl (hw ▸ hv)))
        · exact hH4 w (Finset.mem_union.mpr (Or.inr hw))

lemma bron_kerbosch_complete (G : NXGraph) (hs : G.symmAdj) (hirr : G.irreflAdj)
    (M : Finset Nat) (hM : IsClique G M) :
    ∀ fuel, RecComplete G fuel M (fun R P X b => bron_kerbosch G.neighbors fuel R P X b) := by
  intro fuel
  induction fuel with
  | zero =>
    intro R P X b hcard
    exact absurd hcard (Nat.not_lt_zero _)
  | succ fuel ih =>
    intro R P X b hcard hRM hMR hH3 hH4
    by_cases hempty : M \ R = ∅
    · -- R already equals M; both P and X must be empty, and the report fires
      have hMsubR : M ⊆ R := Finset.sdiff_eq_empty_iff_subset.mp hempty
      have hReqM : R = M := Finset.Subset.antisymm hRM hMsubR
      have hPX : ∀ w, w ∉ P ∪ X := by
        intro w hw
        have hadjR : allAdj G w R := hH3 w hw
        have hwM : w ∈ M := hH4 w hw (hReqM ▸ hadjR)
        exact hirr w (hadjR w (hReqM ▸ hwM))
      have hP : P = ∅ := by
        rw [Finset.eq_empty_iff_forall_not_mem]
        intro w hw
        exact hPX w (Finset.mem_union.mpr (Or.inl hw))
      have hX : X = ∅ := by
        rw [Finset.eq_empty_iff_forall_not_mem]
        intro w hw
        exact hPX w (Finset.mem_union.mpr (Or.inr hw))
      subst hP
      subst hX
      simp only [bron_kerbosch, if_pos (And.intro rfl rfl)]
      by_cases hlt : b.card < R.card
      · rw [if_pos hlt]
        exact ⟨R, rfl, le_of_eq (congrArg Finset.card hReqM.symm)⟩
      · rw [if_neg hlt]
        refine ⟨b, rfl, ?_⟩
        have : R.card ≤ b.card := Nat.le_of_not_lt hlt
        calc M.card = R.card := congrArg Finset.card hReqM.symm
          _ ≤ b.card := this
    · -- some vertex of M is still a candidate; run the loop
      have hne : (M \ R).Nonempty := Finset.nonempty_iff_ne_empty.mpr hempty
      have hPne : P ≠ ∅ := by
        obtain ⟨u, hu⟩ := hne
        intro hP
        exact (Finset.eq_empty_iff_forall_not_mem.mp hP u) (hMR hu)
      have hguard : ¬(P = ∅ ∧ X = ∅) := fun h => hPne h.1
      have hloop := bkLoop_complete G hs hirr M hM fuel
        (fun R1 P1 X1 b1 => bron_kerbosch G.neighbors fuel R1 P1 X1 b1)
        (bron_kerbosch_mono G.neighbors fuel)
        (bron_kerbosch_isSome G.neighbors (neighbors_not_self G hirr) fuel)
        ih (sortedList P) R P X b (sortedList_nodup P) (mem_sortedList P)
        (by omega) hRM hne hMR hH3 hH4
      obtain ⟨b1, hb1, hMb1⟩ := hloop
      refine ⟨b1, ?_, hMb1⟩
      simp only [bron_kerbosch]
      rw [if_neg hguard]
      exact hb1

lemma exists_maximal_extension (G : NXGraph) (hs : G.symmAdj) :
    ∀ n M, (G.nodes \ M).card = n → IsClique G M → M ⊆ G.nodes →
      ∃ M1, M ⊆ M1 ∧ IsClique G M1 ∧ M1 ⊆ G.nodes ∧
        ∀ v ∈ G.nodes, allAdj G v M1 → v ∈ M1 := by
  intro n
  induction n using Nat.strong_induction_on with
  | _ n ih =>
    intro M hn hM hMn
    by_cases h : ∃ v, v ∈ G.nodes ∧ v ∉ M ∧ allAdj G v M
    · obtain ⟨v, hv, hvM, hvadj⟩ := h
      have hclique : IsClique G (insert v M) := IsClique_insert G hs M v hM hvadj
      have hsub : insert v M ⊆ G.nodes := Finset.insert_subset hv hMn
      have hlt : (G.nodes \ insert v M).card < n := by
        rw [← hn]
        refine Finset.card_lt_card ⟨Finset.sdiff_subset_sdiff (Finset.Subset.refl _)
          (Finset.subset_insert v M), ?_⟩
        intro hcon
        have h1 : v ∈ G.nodes \ M := Finset.mem_sdiff.mpr ⟨hv, hvM⟩
        have h2 := hcon h1
        rw [Finset.mem_sdiff] at h2
        exact h2.2 (Finset.mem_insert_self v M)
      obtain ⟨M1, hsub1, hc1, hn1, hmax1⟩ := ih _ hlt (insert v M) rfl hclique hsub
      exact ⟨M1, le_trans (Finset.subset_insert v M) hsub1, hc1, hn1, hmax1⟩
    · push_neg at h
      refine ⟨M, Finset.Subset.refl M, hM, hMn, ?_⟩
      intro v hv hadj
      by_contra hvM
      exact h v hv hvM hadj

lemma pre_union_eq (P X : Finset Nat) (q : Finset Nat) (hq : q ⊆ P) :
    (P \ q) ∪ (X ∪ q) = P ∪ X := by
  ext w
  simp only [Finset.mem_union, Finset.mem_sdiff]
  constructor
  · rintro ((⟨h1, _⟩) | (h | h))
    · exact Or.inl h1
    · exact Or.inr h
    · exact Or.inl (hq h)
  · rintro (h | h)
    · by_cases hwq : w ∈ q
      · exact Or.inr (Or.inr hwq)
      · exact Or.inl ⟨h, hwq⟩
    · exact Or.inr (Or.inl h)

lemma reachable_invariant (G : NXGraph) (hs : G.symmAdj) :
    ∀ R P X, ReachableCall G R P X →
      IsClique G R ∧ R ⊆ G.nodes ∧ P ⊆ G.nodes ∧ X ⊆ G.nodes ∧
      (∀ w ∈ P ∪ X, allAdj G w R) ∧
      (∀ u ∈ G.nodes, u ∉ R → allAdj G u R → u ∈ P ∪ X) := by
  intro R P X h
  induction h with
  | init =>
    refine ⟨?_, Finset.empty_subset _, Finset.Subset.refl _, Finset.empty_subset _, ?_, ?_⟩
    · intro a ha
      exact absurd ha (Finset.not_mem_empty a)
    · intro w _ u hu
      exact absurd hu (Finset.not_mem_empty u)
    · intro u hu _ _
      exact Finset.mem_union.mpr (Or.inl hu)
  | step R P X pre v suf hreach hguard hsort ih =>
    obtain ⟨hRc, hRn, hPn, hXn, hcomm, hexact⟩ := ih
    have hpre : pre.toFinset ⊆ P := by
      intro w hw
      rw [List.mem_toFinset] at hw
      exact (mem_sortedList P w).mp (hsort ▸ List.mem_append.mpr (Or.inl hw))
    have hv : v ∈ P :=
      (mem_sortedList P v).mp
        (hsort ▸ List.mem_append.mpr (Or.inr (List.mem_cons_self v suf)))
    have hvR : allAdj G v R := hcomm v (Finset.mem_union.mpr (Or.inl hv))
    have hunion : ∀ w, w ∈ ((P \ pre.toFinset) ∩ G.neighbors v) ∪
        ((X ∪ pre.toFinset) ∩ G.neighbors v) ↔ w ∈ (P ∪ X) ∧ w ∈ G.neighbors v := by
      intro w
      rw [← Finset.union_inter_distrib_right, Finset.mem_inter,
        pre_union_eq P X pre.toFinset hpre]
    refine ⟨IsClique_insert G hs R v hRc hvR, ?_, ?_, ?_, ?_, ?_⟩
    · exact Finset.insert_subset (hPn hv) hRn
    · intro w hw
      rw [Finset.mem_inter, Finset.mem_sdiff] at hw
      exact hPn hw.1.1
    · intro w hw
      rw [Finset.mem_inter, Finset.mem_union] at hw
      rcases hw.1 with h | h
      · exact hXn h
      · rw [List.mem_toFinset] at h
        exact hPn (hpre (List.mem_toFinset.mpr h))
    · intro w hw
      rw [hunion w] at hw
      exact allAdj_insert G R v w (hcomm w hw.1) ((mem_neighbors G v w).mp hw.2)
    · intro u hu huR hadj
      rw [hunion u]
      have huR0 : u ∉ R := fun h => huR (Finset.mem_insert_of_mem h)
      have hadj0 : allAdj G u R := fun z hz => hadj z (Finset.mem_insert_of_mem hz)
      have hvu : (v, u) ∈ G.adjPairs := hadj v (Finset.mem_insert_self v R)
      exact ⟨hexact u hu huR0 hadj0, (mem_neighbors G v u).mpr hvu⟩

lemma symmAdj_iff (G : NXGraph) :
    G.symmAdj ↔ ∀ p ∈ G.adjPairs, (p.2, p.1) ∈ G.adjPairs := by
  constructor
  · intro h p hp
    exact h p.1 p.2 hp
  · intro h u v huv
    exact h (u, v) huv

lemma irreflAdj_iff (G : NXGraph) :
    G.irreflAdj ↔ ∀ p ∈ G.adjPairs, p.1 ≠ p.2 := by
  constructor
  · intro h p hp hpe
    have : (p.1, p.1) ∈ G.adjPairs := by
      have : p = (p.1, p.2) := rfl
      rw [this, ← hpe] at hp
      exact hp
    exact h p.1 this
  · intro h u hu
    exact h (u, u) hu rfl

/-- The triangle graph on vertices 0, 1, 2, as parse_graph_file builds it
from the three edge lines 0-1, 0-2, 1-2. -/
def Gtri : NXGraph := parse_graph_edges [(0, 1), (0, 2), (1, 2)]

lemma Gtri_symm : Gtri.symmAdj := (symmAdj_iff Gtri).mpr (by decide)

lemma Gtri_irrefl : Gtri.irreflAdj := (irreflAdj_iff Gtri).mpr (by decide)

lemma IsClique_empty (G : NXGraph) : IsClique G ∅ :=
  fun a ha => absurd ha (Finset.not_mem_empty a)

lemma allAdj_empty_all (G : NXGraph) (P : Finset Nat) :
    ∀ w ∈ P, allAdj G w ∅ :=
  fun _ _ u hu => absurd hu (Finset.not_mem_empty u)

/-- C1: for every finite graph with symmetric irreflexive adjacency, BK(G)
returns a clique and no clique of G has size strictly greater than it: the
result is a maximum clique. -/
theorem BK_returns_maximum_clique (G : NXGraph) (hs : G.symmAdj) (hirr : G.irreflAdj) :
    ∃ l, BK G = some l ∧ is_clique G l = true ∧
      ∀ M, IsClique G M → M ⊆ G.nodes → M.card ≤ l.length := by
  have hnbrs := neighbors_not_self G hirr
  have htot := bron_kerbosch_isSome G.neighbors hnbrs (G.nodes.card + 1)
    ∅ G.nodes ∅ ∅ (Nat.lt_succ_self _)
  obtain ⟨best, hbest0⟩ := Option.isSome_iff_exists.mp htot
  have hbest : bron_kerbosch G.neighbors (G.nodes.card + 1) ∅ G.nodes ∅ ∅ = some best :=
    hbest0
  refine ⟨sortedList best, ?_, ?_, ?_⟩
  · unfold BK
    rw [hbest]
    rfl
  · exact is_clique_sortedList G best
      (bron_kerbosch_sound G hs (G.nodes.card + 1) ∅ G.nodes ∅ ∅ best
        (IsClique_empty G) (allAdj_empty_all G G.nodes) (IsClique_empty G) hbest)
  · intro M hM hMn
    obtain ⟨M1, hMM1, hM1c, hM1n, hM1max⟩ :=
      exists_maximal_extension G hs (G.nodes \ M).card M rfl hM hMn
    have hcomp := bron_kerbosch_complete G hs hirr M1 hM1c (G.nodes.card + 1)
      ∅ G.nodes ∅ ∅ (Nat.lt_succ_self _) (Finset.empty_subset M1) ?_ ?_ ?_
    · obtain ⟨b1, hb10, hM1b1⟩ := hcomp
      have hb1 : bron_kerbosch G.neighbors (G.nodes.card + 1) ∅ G.nodes ∅ ∅ = some b1 :=
        hb10
      have hbb : b1 = best := by
        rw [hb1] at hbest
        exact Option.some.inj hbest
      rw [sortedList_length]
      calc M.card ≤ M1.card := Finset.card_le_card hMM1
        _ ≤ b1.card := hM1b1
        _ = best.card := congrArg Finset.card hbb
    · rw [Finset.sdiff_empty]
      exact hM1n
    · intro w _
      exact allAdj_empty_all G {w} w (Finset.mem_singleton_self w)
    · intro w hw hadj
      rw [Finset.union_empty] at hw
      exact hM1max w hw hadj

/-- C1 witness: the theorem applied to the concrete triangle graph. -/
theorem BK_returns_maximum_clique_witness :
    ∃ l, BK Gtri = some l ∧ is_clique Gtri l = true ∧
      ∀ M, IsClique Gtri M → M ⊆ Gtri.nodes → M.card ≤ l.length :=
  BK_returns_maximum_clique Gtri Gtri_symm Gtri_irrefl

/-- C2: for every graph with symmetric adjacency, whenever BK(G) returns a
vertex list, is_clique accepts it. -/
theorem BK_result_is_clique (G : NXGraph) (hs : G.symmAdj) (l : List Nat)
    (h : BK G = some l) : is_clique G l = true := by
  unfold BK at h
  obtain ⟨best, hbest, hl⟩ := Option.map_eq_some'.mp h
  subst hl
  exact is_clique_sortedList G best
    (bron_kerbosch_sound G hs (G.nodes.card + 1) ∅ G.nodes ∅ ∅ best
      (IsClique_empty G) (allAdj_empty_all G G.nodes) (IsClique_empty G) hbest)

/-- C2 witness: the clique BK returns on the triangle validates. -/
theorem BK_result_is_clique_witness : is_clique Gtri [0, 1, 2] = true :=
  BK_result_is_clique Gtri Gtri_symm [0, 1, 2] (by decide)

/-- C3: in every reachable call, a report (P and X both empty) happens at a
maximal clique; and the shared best is replaced only on strictly greater
size, so its size never decreases and a tie keeps the earlier clique. -/
theorem report_is_maximal_and_best_monotone (G : NXGraph) (hs : G.symmAdj)
    (R P X : Finset Nat) (h : ReachableCall G R P X) :
    (P = ∅ → X = ∅ → MaximalClique G R) ∧
    (∀ fuel best, P = ∅ → X = ∅ →
      bron_kerbosch G.neighbors (fuel + 1) R P X best =
        some (if best.card < R.card then R else best)) ∧
    (∀ fuel best best1, bron_kerbosch G.neighbors fuel R P X best = some best1 →
      best.card ≤ best1.card ∧ (best1.card = best.card → best1 = best)) := by
  obtain ⟨hRc, hRn, _, _, _, hexact⟩ := reachable_invariant G hs R P X h
  refine ⟨?_, ?_, ?_⟩
  · intro hP hX
    refine ⟨hRc, hRn, ?_⟩
    intro v hv hvR hadj
    have := hexact v hv hvR hadj
    rw [hP, hX, Finset.union_empty] at this
    exact Finset.not_mem_empty v this
  · intro fuel best hP hX
    subst hP
    subst hX
    simp [bron_kerbosch]
  · intro fuel best best1 hrun
    have hmono := bron_kerbosch_mono G.neighbors fuel R P X best best1 hrun
    refine ⟨hmono.1, ?_⟩
    intro heq
    rcases hmono.2 with he | hlt
    · exact he
    · omega

lemma reach_tri_1 : ReachableCall Gtri {0} ({1, 2} : Finset Nat) ∅ := by
  have h := ReachableCall.step ∅ Gtri.nodes ∅ [] 0 [1, 2] ReachableCall.init
    (by decide) (by decide)
  have e1 : ((Gtri.nodes \ ([] : List Nat).toFinset) ∩ Gtri.neighbors 0) =
      ({1, 2} : Finset Nat) := by decide
  have e2 : (((∅ : Finset Nat) ∪ ([] : List Nat).toFinset) ∩ Gtri.neighbors 0) =
      (∅ : Finset Nat) := by decide
  rw [e1, e2] at h
  exact h

lemma reach_tri_2 : ReachableCall Gtri {0, 1} ({2} : Finset Nat) ∅ := by
  have h := ReachableCall.step {0} ({1, 2} : Finset Nat) ∅ [] 1 [2] reach_tri_1
    (by decide) (by decide)
  have e1 : ((({1, 2} : Finset Nat) \ ([] : List Nat).toFinset) ∩ Gtri.neighbors 1) =
      ({2} : Finset Nat) := by decide
  have e2 : (((∅ : Finset Nat) ∪ ([] : List Nat).toFinset) ∩ Gtri.neighbors 1) =
      (∅ : Finset Nat) := by decide
  have e3 : (insert 1 ({0} : Finset Nat)) = ({0, 1} : Finset Nat) := by decide
  rw [e1, e2, e3] at h
  exact h

lemma reach_tri_3 : ReachableCall Gtri {0, 1, 2} (∅ : Finset Nat) ∅ := by
  have h := ReachableCall.step {0, 1} ({2} : Finset Nat) ∅ [] 2 [] reach_tri_2
    (by decide) (by decide)
  have e1 : ((({2} : Finset Nat) \ ([] : List Nat).toFinset) ∩ Gtri.neighbors 2) =
      (∅ : Finset Nat) := by decide
  have e2 : (((∅ : Finset Nat) ∪ ([] : List Nat).toFinset) ∩ Gtri.neighbors 2) =
      (∅ : Finset Nat) := by decide
  have e3 : (insert 2 ({0, 1} : Finset Nat)) = ({0, 1, 2} : Finset Nat) := by decide
  rw [e1, e2, e3] at h
  exact h

/-- C3 witness: at the reachable leaf call ({0,1,2}, ∅, ∅) of the triangle
the reported set is a maximal clique, and a report at an equal-size best
keeps the old best. -/
theorem report_is_maximal_and_best_monotone_witness :
    MaximalClique Gtri {0, 1, 2} ∧
    bron_kerbosch Gtri.neighbors 1 {0, 1, 2} ∅ ∅ {3, 4, 5} = some {3, 4, 5} := by
  have h := report_is_maximal_and_best_monotone Gtri Gtri_symm
    {0, 1, 2} ∅ ∅ reach_tri_3
  refine ⟨h.1 rfl rfl, ?_⟩
  have h2 := h.2.1 0 {3, 4, 5} rfl rfl
  rw [h2]
  decide

/-- C4: on an irreflexive graph, each child candidate set P ∩ neighbors(v)
is a strict subset of the parent's P, and the recursion started at
(∅, nodes, ∅) completes for every fuel beyond the vertex count — the
search is finite. -/
theorem bron_kerbosch_terminates (G : NXGraph) (hirr : G.irreflAdj) :
    (∀ P : Finset Nat, ∀ v ∈ P, P ∩ G.neighbors v ⊂ P) ∧
    (∀ fuel, G.nodes.card < fuel →
      (bron_kerbosch G.neighbors fuel ∅ G.nodes ∅ ∅).isSome = true) ∧
    (BK G).isSome = true := by
  have hnbrs := neighbors_not_self G hirr
  refine ⟨?_, ?_, ?_⟩
  · intro P v hv
    exact inter_nbrs_ssubset G.neighbors hnbrs P v hv
  · intro fuel hfuel
    exact bron_kerbosch_isSome G.neighbors hnbrs fuel ∅ G.nodes ∅ ∅ hfuel
  · unfold BK
    rw [Option.isSome_map']
    exact bron_kerbosch_isSome G.neighbors hnbrs (G.nodes.card + 1) ∅ G.nodes ∅ ∅
      (Nat.lt_succ_self _)

/-- C4 witness: on the triangle, branching on 0 strictly shrinks P and the
search completes. -/
theorem bron_kerbosch_terminates_witness :
    ({0, 1, 2} : Finset Nat) ∩ Gtri.neighbors 0 ⊂ {0, 1, 2} ∧
    (BK Gtri).isSome = true :=
  ⟨(bron_kerbosch_terminates Gtri Gtri_irrefl).1 {0, 1, 2} 0 (by decide),
    (bron_kerbosch_terminates Gtri Gtri_irrefl).2.2⟩

/-- C5: in every reachable call of the search on a symmetric irreflexive
graph, R is a valid clique. -/
theorem reachable_R_is_clique (G : NXGraph) (hs : G.symmAdj) (hirr : G.irreflAdj)
    (R P X : Finset Nat) (h : ReachableCall G R P X) : IsClique G R :=
  (reachable_invariant G hs R P X h).1

/-- C5 witness: the reachable call ({0,1}, {2}, ∅) on the triangle carries a
valid clique. -/
theorem reachable_R_is_clique_witness : IsClique Gtri {0, 1} :=
  reachable_R_is_clique Gtri Gtri_symm Gtri_irrefl {0, 1} {2} ∅ reach_tri_2

lemma msg_agree_ne_bk : msg_agree ≠ msg_bk_invalid := by decide

lemma msg_agree_ne_ilp : msg_agree ≠ msg_ilp_invalid := by decide

lemma msg_agree_ne_mismatch : msg_agree ≠ msg_mismatch := by decide

lemma msg_mismatch_ne_bk : msg_mismatch ≠ msg_bk_invalid := by decide

lemma msg_mismatch_ne_ilp : msg_mismatch ≠ msg_ilp_invalid := by decide

/-- C6: the orchestrator prints the agreement line exactly when both
candidates validate and their sizes agree, and prints the mismatch line in
every other case.  The embedding is a pure function of the graph and the
two candidate lists, which it does not modify. -/
theorem validate_agreement_iff (G : NXGraph) (a b : List Nat) :
    (msg_agree ∈ validate_maximum_cliques G a b ↔
      is_clique G a = true ∧ is_clique G b = true ∧ a.length = b.length) ∧
    (msg_mismatch ∈ validate_maximum_cliques G a b ↔
      ¬(is_clique G a = true ∧ is_clique G b = true ∧ a.length = b.length)) := by
  by_cases hA : is_clique G a = true <;> by_cases hB : is_clique G b = true <;>
    by_cases hL : a.length = b.length <;>
      simp [validate_maximum_cliques, hA, hB, hL, msg_agree_ne_bk, msg_agree_ne_ilp,
        msg_agree_ne_mismatch, msg_mismatch_ne_bk, msg_mismatch_ne_ilp,
        Bool.not_eq_true] at * <;> tauto

lemma IsClique_singleton (G : NXGraph) (v : Nat) : IsClique G {v} := by
  intro a ha c hc hac
  rw [Finset.mem_singleton] at ha hc
  exact absurd (ha.trans hc.symm) hac

/-- C7: on the empty graph BK returns the empty clique, and on any graph
with at least one vertex and no edges BK returns a clique of size exactly
one. -/
theorem BK_empty_and_edgeless (G : NXGraph) :
    (G.nodes = ∅ → BK G = some []) ∧
    (G.adjPairs = ∅ → 1 ≤ G.nodes.card → ∃ l, BK G = some l ∧ l.length = 1) := by
  constructor
  · intro h
    unfold BK
    rw [h]
    have e : sortedList (∅ : Finset Nat) = [] := by decide
    simp [bron_kerbosch, e]
  · intro hadj hcard
    have hs : G.symmAdj := by
      intro u v huv
      rw [hadj] at huv
      exact absurd huv (Finset.not_mem_empty _)
    have hirr : G.irreflAdj := by
      intro u hu
      rw [hadj] at hu
      exact Finset.not_mem_empty _ hu
    have hnbrs := neighbors_not_self G hirr
    have htot := bron_kerbosch_isSome G.neighbors hnbrs (G.nodes.card + 1)
      ∅ G.nodes ∅ ∅ (Nat.lt_succ_self _)
    obtain ⟨best, hbest0⟩ := Option.isSome_iff_exists.mp htot
    have hbest : bron_kerbosch G.neighbors (G.nodes.card + 1) ∅ G.nodes ∅ ∅ =
        some best := hbest0
    have hclique : IsClique G best :=
      bron_kerbosch_sound G hs (G.nodes.card + 1) ∅ G.nodes ∅ ∅ best
        (IsClique_empty G) (allAdj_empty_all G G.nodes) (IsClique_empty G) hbest
    have hle : best.card ≤ 1 := by
      by_contra hgt
      push_neg at hgt
      obtain ⟨x, hx, y, hy, hxy⟩ := Finset.one_lt_card.mp hgt
      have := hclique x hx y hy hxy
      rw [hadj] at this
      exact Finset.not_mem_empty _ this
    obtain ⟨v, hv⟩ := Finset.card_pos.mp hcard
    have hcomp := bron_kerbosch_complete G hs hirr {v} (IsClique_singleton G v)
      (G.nodes.card + 1) ∅ G.nodes ∅ ∅ (Nat.lt_succ_self _)
      (Finset.empty_subset _) ?_ ?_ ?_
    · obtain ⟨b1, hb10, hvb1⟩ := hcomp
      have hb1 : bron_kerbosch G.neighbors (G.nodes.card + 1) ∅ G.nodes ∅ ∅ =
          some b1 := hb10
      have hbb : b1 = best := by
        rw [hb1] at hbest
        exact Option.some.inj hbest
      rw [Finset.card_singleton, hbb] at hvb1
      refine ⟨sortedList best, ?_, ?_⟩
      · unfold BK
        rw [hbest]
        rfl
      · rw [sortedList_length]
        omega
    · rw [Finset.sdiff_empty]
      exact Finset.singleton_subset_iff.mpr hv
    · intro w _
      exact allAdj_empty_all G {w} w (Finset.mem_singleton_self w)
    · intro w _ hadj2
      have := hadj2 v (Finset.mem_singleton_self v)
      rw [hadj] at this
      exact absurd this (Finset.not_mem_empty _)

/-- C7 witness: the empty graph yields the empty clique and a one-vertex
edgeless graph yields a clique of size one. -/
theorem BK_empty_and_edgeless_witness :
    BK (⟨∅, ∅⟩ : NXGraph) = some [] ∧
    ∃ l, BK (⟨{5}, ∅⟩ : NXGraph) = some l ∧ l.length = 1 :=
  ⟨(BK_empty_and_edgeless ⟨∅, ∅⟩).1 rfl,
    (BK_empty_and_edgeless ⟨{5}, ∅⟩).2 rfl (by decide)⟩

/-- C8 counterexample: on the one-vertex graph with no edges, the candidate
list [0, 0] satisfies the pairwise-adjacency condition on distinct members
vacuously, yet is_clique returns false — the stated equivalence fails for
candidate collections with repeated entries. -/
theorem is_clique_duplicate_counterexample :
    is_clique (⟨{0}, ∅⟩ : NXGraph) [0, 0] = false ∧
    ∀ a ∈ ([0, 0] : List Nat), ∀ b ∈ ([0, 0] : List Nat), a ≠ b →
      (a, b) ∈ (⟨{0}, ∅⟩ : NXGraph).adjPairs := by
  refine ⟨by decide, by decide⟩

/-- C8 (amended): for duplicate-free candidates on a symmetric graph,
is_clique returns true exactly when all distinct pairs are adjacent, and
any candidate of length at most one is accepted. -/
theorem is_clique_nodup_iff_pairwise_adj (G : NXGraph) (hs : G.symmAdj)
    (c : List Nat) :
    (c.Nodup →
      (is_clique G c = true ↔ ∀ a ∈ c, ∀ b ∈ c, a ≠ b → (a, b) ∈ G.adjPairs)) ∧
    (c.length ≤ 1 → is_clique G c = true) := by
  constructor
  · intro hnd
    rw [is_clique_iff_pairwise]
    constructor
    · intro hpw a ha b hb hab
      exact hpw.forall (fun x y hxy => hs x y hxy) ha hb hab
    · intro h
      refine List.Pairwise.imp_of_mem ?_ hnd
      intro a b ha hb hab
      exact h a ha b hb hab
  · intro hlen
    match c with
    | [] => rfl
    | [v] => rfl

/-- C8 witness: the equivalence on the duplicate-free triangle candidate and
acceptance of a short candidate. -/
theorem is_clique_nodup_iff_pairwise_adj_witness :
    (is_clique Gtri [0, 1, 2] = true ↔
      ∀ a ∈ ([0, 1, 2] : List Nat), ∀ b ∈ ([0, 1, 2] : List Nat), a ≠ b →
        (a, b) ∈ Gtri.adjPairs) ∧
    is_clique Gtri [7] = true :=
  ⟨(is_clique_nodup_iff_pairwise_adj Gtri Gtri_symm [0, 1, 2]).1 (by decide),
    (is_clique_nodup_iff_pairwise_adj Gtri Gtri_symm [7]).2 (by decide)⟩

/-- C9 counterexample: add_edge with a self-loop edge (0, 0) inserts 0 into
its own neighbor set — the loop is neither rejected nor ignored, so the
adjacency relation does not stay irreflexive. -/
theorem selfloop_inserted_counterexample :
    0 ∈ ((⟨∅, ∅⟩ : NXGraph).add_edge 0 0).neighbors 0 := by
  decide

/-- C9 (amended): adding a duplicate edge is a no-op on the whole graph,
but a self-loop edge (u, u) is recorded and puts u into its own neighbor
set. -/
theorem add_edge_duplicate_noop_selfloop_inserted (G : NXGraph) (u v : Nat) :
    (G.add_edge u v).add_edge u v = G.add_edge u v ∧
    u ∈ (G.add_edge u u).neighbors u := by
  constructor
  · unfold NXGraph.add_edge
    refine congrArg₂ NXGraph.mk ?_ ?_
    · ext w
      simp only [Finset.mem_insert]
      tauto
    · ext p
      simp only [Finset.mem_insert]
      tauto
  · rw [mem_neighbors]
    exact Finset.mem_insert_self (u, u) _

/-- C10: whatever list BK returns is ascending and duplicate-free, and is
the canonical sorted enumeration of its own membership set — the output
order is a function of the clique membership alone. -/
theorem BK_output_sorted_nodup (G : NXGraph) (l : List Nat)
    (h : BK G = some l) :
    l.Sorted (· ≤ ·) ∧ l.Nodup ∧ sortedList l.toFinset = l := by
  unfold BK at h
  obtain ⟨best, _, hl⟩ := Option.map_eq_some'.mp h
  subst hl
  exact ⟨sortedList_sorted best, sortedList_nodup best,
    by rw [sortedList_toFinset]⟩

/-- C10 witness: the output on the triangle is sorted, duplicate-free and
canonical for its membership. -/
theorem BK_output_sorted_nodup_witness :
    ([0, 1, 2] : List Nat).Sorted (· ≤ ·) ∧ ([0, 1, 2] : List Nat).Nodup ∧
    sortedList ([0, 1, 2] : List Nat).toFinset = [0, 1, 2] :=
  BK_output_sorted_nodup Gtri [0, 1, 2] (by decide)
